import Mathlib

/-!
Shallow embedding of the numerical-integration core of the Sitnikov toolkit
(crates `integrators` and `sitnikov`), together with theorems settling the
specification claims about it.

Conventions of the embedding:
* Machine floats are modelled by an abstract linearly ordered field `F`
  (the algorithms are representation-agnostic); concrete evaluations use `ℚ`.
* Rust `Result`/`anyhow` failure and `panic!`/assertion failures are both
  modelled as `Option.none` (an aborted computation); `Except` is used where
  the payload of the error matters (the Newton-Raphson root-finder).
* The user-supplied physics callbacks (`accelerations`, `update`,
  `acceleration`) are parameters of the embedded integrators, exactly as they
  are trait methods in the source.
* The nalgebra result matrix is modelled column-wise: `RMatrix` stores the
  number of rows `dim` and the list of columns `cols`.
-/

namespace Sitnikov

/-- Three-place analogue of `List.zipWith`, used to state componentwise
vector operations; truncates at the shortest list. -/
def zip3With {α : Type} (f : α → α → α → α) : List α → List α → List α → List α
  | p :: ps, v :: vs, a :: as2 => f p v a :: zip3With f ps vs as2
  | _, _, _ => []

/-- The nalgebra result matrix (`integrators/src/result.rs`, `Result<F>`):
a dense matrix with `dim` rows, stored as a list of columns. -/
structure RMatrix (F : Type) where
  dim : Nat
  cols : List (List F)
deriving DecidableEq

variable {F : Type} [LinearOrderedField F]

/-- Number of columns of the matrix. -/
def RMatrix.ncols (m : RMatrix F) : Nat := m.cols.length

/-- Embeds `state` (`result.rs` lines 37-39): a copy of column `i`. -/
def RMatrix.state (m : RMatrix F) (i : Nat) : List F := m.cols.getD i []

/-- Embeds `initial_values` (`result.rs` lines 30-32): `state(0)`. -/
def RMatrix.initial_values (m : RMatrix F) : List F := m.state 0

/-- Embeds `set_state` (`result.rs` lines 33-36). `set_column` asserts that
the vector length equals the number of rows and the index is in range;
a failed assertion (a Rust panic) is modelled as `none`. -/
def RMatrix.set_state (m : RMatrix F) (i : Nat) (x : List F) :
    Option (RMatrix F) :=
  if x.length = m.dim ∧ i < m.cols.length then
    some ⟨m.dim, m.cols.set i x⟩
  else
    none

/-- Embeds `new` (`result.rs` lines 25-29): a zero-filled
`nrows × ncols` matrix. -/
def RMatrix.new (nrows ncols : Nat) : RMatrix F :=
  ⟨nrows, List.replicate ncols (List.replicate nrows 0)⟩

/-- Embeds `prepare` (`integrators/src/prepare.rs` lines 14-27): allocate a
zero-filled `x.len() × (n + 1)` matrix and put the initial values in the
first column (that `set_column` always succeeds: the lengths match by
construction). -/
def prepare (x : List F) (n : Nat) : RMatrix F :=
  ⟨x.length, (List.replicate (n + 1) (List.replicate x.length 0)).set 0 x⟩

/-- Embeds `leapfrog_once`
(`integrators/src/symplectic/leapfrog_once.rs` lines 17-37). The state
vector is split into thirds: positions `x[0..l/3]`, velocities
`x[l/3..2*l/3]` and the trailing accelerations `x[2*l/3..l]`. New positions
are computed from the previous state, the acceleration callback is invoked
on the new positions, then the new accelerations are stored in the last
third and the velocities updated. Indexing `a[j - lt1]` beyond the returned
acceleration vector is a Rust panic, modelled as `none`.

`lfPos` is the position update of `leapfrog_once` (lines 24-27 of the
source): `x[j] = x_prev[j] + x_prev[j + lt1]*h + 0.5*x_prev[j + lt2]*h^2`
for `j` in `0..lt1`, with `lt1 = l/3` and `lt2 = 2*lt1`. -/
def lfPos (x_prev : List F) (h : F) : List F :=
  (List.range (x_prev.length / 3)).map fun j =>
    x_prev.getD j 0 + x_prev.getD (j + x_prev.length / 3) 0 * h
      + (1 / 2) * x_prev.getD (j + 2 * (x_prev.length / 3)) 0 * h ^ 2

/-- The output state assembled by `leapfrog_once` (lines 22-36 of the
source): new positions in the first third, updated velocities in the second
third, the new accelerations in the last third (any remainder left zero, as
in `vec![0.; l]`). -/
def lfAssemble (x_prev : List F) (h : F) (a : List F) : List F :=
  (List.range x_prev.length).map fun j =>
    if j < x_prev.length / 3 then (lfPos x_prev h).getD j 0
    else if j < 2 * (x_prev.length / 3) then
      x_prev.getD j 0 + (1 / 2) * (x_prev.getD (j + x_prev.length / 3) 0
        + a.getD (j - x_prev.length / 3) 0) * h
    else if j < 2 * (x_prev.length / 3) + x_prev.length / 3 then
      a.getD (j - 2 * (x_prev.length / 3)) 0
    else 0

/-- Embeds `leapfrog_once`
(`integrators/src/symplectic/leapfrog_once.rs` lines 17-37): compute the
new positions (`lfPos`), invoke the acceleration callback on them, and
assemble the new state (`lfAssemble`). -/
def leapfrogOnce (acc : F → List F → Option (List F)) (t : F) (x_prev : List F)
    (h : F) : Option (List F) :=
  match acc (t + h) (lfPos x_prev h) with
  | none => none
  | some a =>
    if x_prev.length / 3 ≤ a.length then some (lfAssemble x_prev h a)
    else none

/-- Componentwise single leapfrog step on an explicit
(positions, velocities, accelerations) triple; the reference point for the
data-layout refinement of `leapfrogOnce`. Returns the new positions, new
velocities and new accelerations. -/
def lfStepTriple (acc : F → List F → Option (List F)) (t h : F)
    (p v a : List F) : Option (List F × List F × List F) :=
  let p2 := zip3With (fun pj vj aj => pj + vj * h + (1 / 2) * aj * h ^ 2) p v a
  (acc (t + h) p2).map fun a2 =>
    (p2, zip3With (fun vj aj bj => vj + (1 / 2) * (aj + bj) * h) v a a2, a2)

/-- The leapfrog single step exactly as the specification words it
(claim C1): a state vector split into a position half and a velocity half of
equal length `L/2`, with the trailing acceleration `a_prev` passed
separately; returns `(x_new, a_new)`. Stated only to be compared against the
source `leapfrogOnce`. -/
def leapfrogHalvesSpec (acc : F → List F → Option (List F)) (t : F)
    (x : List F) (aPrev : List F) (h : F) : Option (List F × List F) :=
  let lh := x.length / 2
  let pos := x.take lh
  let vel := x.drop lh
  let p2 := zip3With (fun pj vj aj => pj + vj * h + (1 / 2) * aj * h ^ 2)
    pos vel aPrev
  (acc (t + h) p2).map fun aNew =>
    (p2 ++ zip3With (fun vj aj bj => vj + (1 / 2) * (aj + bj) * h)
      vel aPrev aNew, aNew)

/-- Embeds the scalar `leapfrog_step`
(`sitnikov/src/model/comp/leapfrog.rs` lines 13-20): one leapfrog step on a
single position/velocity pair with the trailing acceleration `a_prev` passed
explicitly, returning `(z, z_v, a)`. -/
def leapfrog_step (accel : F → F → Option F) (t z z_v h a_prev : F) :
    Option (F × F × F) :=
  let z2 := z + z_v * h + (1 / 2) * a_prev * h ^ 2
  (accel (t + h) z2).map fun a => (z2, z_v + (1 / 2) * (a_prev + a) * h, a)

/-- Embeds the coefficient `D_1` of the 4th-order Yoshida method
(`integrators/src/symplectic/yoshida_4th.rs` lines 7-14): `1 / (2 - k)`
where `k` stands for `2^(1/3)` (the source computes it as
`exp(ln 2 / 3)`); `k` is kept as a parameter because the cube root of two
is not a rational operation. -/
def d_1 (k : F) : F := 1 / (2 - k)

/-- Embeds the coefficient `D_2 = 1 - 2 * D_1` of the 4th-order Yoshida
method. -/
def d_2 (k : F) : F := 1 - 2 * d_1 k

/-- Embeds the coefficient `D_3 = D_1 + D_2` of the 4th-order Yoshida
method. -/
def d_3 (k : F) : F := d_1 k + d_2 k

/-- Generic integration loop skeleton: starting at step index `i`, repeat
`m` times: compute the next state with `step i x` and store it as column
`i + 1`; any failure aborts. Both the Runge-Kutta and the Yoshida loops
refine this skeleton. -/
def stepLoopGo (step : Nat → List F → Option (List F)) :
    Nat → Nat → List F → RMatrix F → Option (RMatrix F)
  | _, 0, _, res => some res
  | i, m + 1, x, res =>
    match step i x with
    | none => none
    | some x2 =>
      match res.set_state (i + 1) x2 with
      | none => none
      | some res2 => stepLoopGo step (i + 1) m x2 res2

/-- Iterated application of a per-step transition starting from state `x` at
step index `i0`: `stepTraj step x i0 d` is the state after `d` successful
steps. -/
def stepTraj (step : Nat → List F → Option (List F)) (x : List F)
    (i0 : Nat) : Nat → Option (List F)
  | 0 => some x
  | d + 1 => (stepTraj step x i0 d).bind (step (i0 + d))

/-- Embeds the loop body sequence of `yoshida_4th`
(`integrators/src/symplectic/yoshida_4th.rs` lines 43-54): the body at outer
index `i` computes `t = t_0 + i * h` and folds the three leapfrog sub-steps
`(0, i_1), (i_1, i_2), (i_3, i_1)` over the state. -/
def yoshidaBody (acc : F → List F → Option (List F)) (t_0 h i_1 i_2 i_3 : F)
    (i : Nat) (x : List F) : Option (List F) :=
  let t := t_0 + (i : F) * h
  (leapfrogOnce acc (t + 0) x i_1).bind fun x1 =>
    (leapfrogOnce acc (t + i_1) x1 i_2).bind fun x2 =>
      leapfrogOnce acc (t + i_3) x2 i_1

/-- Embeds the `yoshida_4th` method
(`integrators/src/symplectic/yoshida_4th.rs` lines 43-54): compute the
increments `i_k = h * D_k`, start from the initial values of the result
matrix, and for `i` in `0..n` apply the three-sub-step body and store the
new state as column `i + 1`. -/
def yoshida_4th (acc : F → List F → Option (List F)) (k t_0 h : F) (n : Nat)
    (result : RMatrix F) : Option (RMatrix F) :=
  stepLoopGo (yoshidaBody acc t_0 h (h * d_1 k) (h * d_2 k) (h * d_3 k))
    0 n result.initial_values result

/-- One outer step of the 4th-order Yoshida composition as claim C2 words
it: three leapfrog sub-steps with time offsets `0`, `h*d1`, `h*d3` and
sub-step sizes `h*d1`, `h*d2`, `h*d1`. -/
def yoshidaOuter (acc : F → List F → Option (List F)) (k t_0 h : F)
    (i : Nat) (x : List F) : Option (List F) :=
  let t := t_0 + (i : F) * h
  (leapfrogOnce acc t x (h * d_1 k)).bind fun x1 =>
    (leapfrogOnce acc (t + h * d_1 k) x1 (h * d_2 k)).bind fun x2 =>
      leapfrogOnce acc (t + h * d_3 k) x2 (h * d_1 k)

/-- Embeds one step of the classic RK4 scheme, the loop body of
`runge_kutta_4th` (`integrators/src/general/runge_kutta_4th.rs` lines
26-79): four stage evaluations of the `update` callback and the final
combination `x + h/6 * (k1 + 2*k2 + 2*k3 + k4)`; elementwise combination
uses truncating zips exactly as the Rust iterator chains do. -/
def rk4Step (update : F → List F → Option (List F)) (t h : F) (x : List F) :
    Option (List F) :=
  let t_2 := t + h / 2
  let t_3 := t_2
  let t_4 := t + h
  (update t x).bind fun k_1 =>
    (update t_2 (List.zipWith (fun xv kv => xv + h * kv / 2) x k_1)).bind
      fun k_2 =>
      (update t_3 (List.zipWith (fun xv kv => xv + h * kv / 2) x k_2)).bind
        fun k_3 =>
        (update t_4 (List.zipWith (fun xv kv => xv + h * kv) x k_3)).bind
          fun k_4 =>
          some (((((x.zip k_1).zip k_2).zip k_3).zip k_4).map fun q =>
            q.1.1.1.1 + h / 6 *
              (q.1.1.1.2 + 2 * q.1.1.2 + 2 * q.1.2 + q.2))

/-- Embeds the `runge_kutta_4th` method
(`integrators/src/general/runge_kutta_4th.rs` lines 26-79): start from the
initial values of the result matrix and for `i` in `0..n` store the RK4
step of the current state at time `t_0 + i * h` as column `i + 1`. -/
def runge_kutta_4th (update : F → List F → Option (List F)) (t_0 h : F)
    (n : Nat) (result : RMatrix F) : Option (RMatrix F) :=
  stepLoopGo (fun i x => rk4Step update (t_0 + (i : F) * h) h x)
    0 n result.initial_values result

/-- Embeds the general `integrate` method
(`integrators/src/general/integrate.rs` lines 15-37): prepare a result
matrix from the initial values and dispatch to the chosen method (the only
general method is `RungeKutta4th`). -/
def generalIntegrate (update : F → List F → Option (List F)) (x : List F)
    (t_0 h : F) (n : Nat) : Option (RMatrix F) :=
  runge_kutta_4th update t_0 h n (prepare x n)

/-- One Newton-Raphson update `x - f(x) / f'(x)`
(`sitnikov/src/model/comp/newton_raphson.rs` line 30). -/
def nrNext (f d : F → F) (x : F) : F := x - f x / d x

/-- Embeds the bounded iteration of `newton_raphson`
(`sitnikov/src/model/comp/newton_raphson.rs` lines 25-37): up to `fuel`
iterations of `x2 = x1 - f(x1)/d(x1)`, returning the first `x2` with
`|x1 - x2| < eps * 10`; `none` models falling out of the loop. -/
def newtonLoop (eps : F) (f d : F → F) : Nat → F → Option F
  | 0, _ => none
  | fuel + 1, x1 =>
    let x2 := nrNext f d x1
    if |x1 - x2| < eps * 10 then some x2 else newtonLoop eps f d fuel x2

/-- Embeds `newton_raphson`
(`sitnikov/src/model/comp/newton_raphson.rs` lines 13-42) with
`MAX_ITER = 5000`: if `|initial| < eps` return `initial` immediately,
otherwise iterate; exhausting the iteration budget yields the
`DidNotConverge` error carrying the initial value, modelled as
`Except.error initial`. `eps` abstracts `F::epsilon()`. -/
def newton_raphson (eps : F) (f d : F → F) (initial : F) : Except F F :=
  if |initial| < eps then Except.ok initial
  else
    match newtonLoop eps f d 5000 initial with
    | some r => Except.ok r
    | none => Except.error initial

/-- The Newton-Raphson iterate sequence starting from `x0`:
`nrSeq f d x0 k` is `x_k`. -/
def nrSeq (f d : F → F) (x0 : F) : Nat → F
  | 0 => x0
  | k + 1 => nrNext f d (nrSeq f d x0 k)

/-- The convergence test of the `k`-th Newton-Raphson iteration:
`|x_k - x_{k+1}| < eps * 10`. -/
def nrConv (eps : F) (f d : F → F) (x0 : F) (k : Nat) : Prop :=
  |nrSeq f d x0 k - nrSeq f d x0 (k + 1)| < eps * 10

instance (eps : F) (f d : F → F) (x0 : F) (k : Nat) :
    Decidable (nrConv eps f d x0 k) := by
  unfold nrConv; infer_instance

/-- Embeds `trapezoidal`
(`sitnikov/src/model/comp/compute_megnos.rs` lines 40-48): the incremental
trapezoidal-rule update of a running integral from the previous and current
integrand values only. -/
def trapezoidal (h : F) (i : Nat) (integral integrand_prev integrand : F) :
    F :=
  if i = 1 then integral + h * (integrand_prev + integrand) / 2
  else
    (integral + h * integrand_prev / 2 / ((i : F) - 1)) * ((i : F) - 1) / (i : F)
      + h * integrand / 2 / (i : F)

/-- Embeds the accumulation loop of `compute_megnos`
(`sitnikov/src/model/comp/compute_megnos.rs` lines 85-115). The integrand
evaluation `self.integrand(t, z_res[i], z_delta[i], z_v_delta[i])` (whose
body involves square roots, outside this claim) is abstracted as the oracle
`ig i t`. State carried across iterations: the two running integrals, the
previous integrand value, and the two output vectors; the mean-integral
update reads `megno[i-1]` from the just-extended MEGNO vector, exactly as
the source does. -/
def megnoGo (ig : Nat → F → Option F) (t_0 h : F) :
    Nat → Nat → F → F → F → List F → List F → Option (List F × List F)
  | _, 0, _, _, _, megnos, means => some (megnos, means)
  | i, m + 1, megnoInt, meanInt, prev, megnos, means =>
    let t := t_0 + (i : F) * h
    match ig i t with
    | none => none
    | some igv =>
      let megnoInt2 := trapezoidal h i megnoInt prev igv
      let megno := 2 / t * megnoInt2
      let megnos2 := megnos ++ [megno]
      let meanInt2 := trapezoidal h i meanInt (megnos2.getD (i - 1) 0) megno
      let mean := 1 / t * meanInt2
      megnoGo ig t_0 h (i + 1) m megnoInt2 meanInt2 igv megnos2
        (means ++ [mean])

/-- Embeds the MEGNO accumulation of `compute_megnos`
(`sitnikov/src/model/comp/compute_megnos.rs` lines 85-115): both running
integrals and the previous integrand start at zero and the loop runs for
`i` in `1..=n`, returning the MEGNO and mean-MEGNO vectors. -/
def compute_megnos (ig : Nat → F → Option F) (t_0 h : F) (n : Nat) :
    Option (List F × List F) :=
  megnoGo ig t_0 h 1 n 0 0 0 [] []

/-- The running raw MEGNO integral after step `i` (claim-side recurrence):
trapezoidal accumulation of the integrand series `g`, where the previous
integrand value is `0` at the first step and `g (i-1)` afterwards. -/
def rawInt (h : F) (g : Nat → F) : Nat → F
  | 0 => 0
  | i + 1 =>
    trapezoidal h (i + 1) (rawInt h g i) (if i = 0 then 0 else g i) (g (i + 1))

/-- MEGNO at step `i` (claim-side): `2 / t * integral` at `t = t_0 + i*h`. -/
def megnoAt (t_0 h : F) (g : Nat → F) (i : Nat) : F :=
  2 / (t_0 + (i : F) * h) * rawInt h g i

/-- The running mean-MEGNO integral after step `i` (claim-side recurrence):
trapezoidal accumulation of the MEGNO series itself (the source passes the
just-stored `megno[i-1]`, i.e. the current MEGNO value, as the previous
integrand). -/
def meanInt (t_0 h : F) (g : Nat → F) : Nat → F
  | 0 => 0
  | i + 1 =>
    trapezoidal h (i + 1) (meanInt t_0 h g i) (megnoAt t_0 h g (i + 1))
      (megnoAt t_0 h g (i + 1))

/-- Mean MEGNO at step `i` (claim-side): `1 / t * mean_integral`. -/
def meanMegnoAt (t_0 h : F) (g : Nat → F) (i : Nat) : F :=
  1 / (t_0 + (i : F) * h) * meanInt t_0 h g i

/-- The fixed RNG seed of the MEGNO computation:
`Xoshiro256PlusPlus::seed_from_u64(1)`
(`sitnikov/src/model/comp/integrate.rs` line 88,
`compute_megnos.rs` line 53). -/
def megnoSeed : Nat := 1

/-- Embeds `variate` (`sitnikov/src/model/comp/integrate.rs` lines 16-22):
a draw from `Normal(x, 1e-1)`, i.e. `x + (1/10) * g` where `g` is the next
standard-normal draw of the generator; the generator is abstracted as the
stream `g` of its successive draws, `idx` being the position in the
stream. -/
def variate (g : Nat → F) (idx : Nat) (x : F) : F := x + (1 / 10) * g idx

/-- Embeds the `accelerations` implementation for the model
(`sitnikov/src/model/comp/integrate.rs` lines 24-41): acceleration of the
primary trajectory, plus that of the shadow trajectory when MEGNOs are
requested. The scalar `acceleration` physics callback is the oracle
`accel`. -/
def modelAccelerations (computeMegnosFlag : Bool)
    (accel : F → F → Option F) : F → List F → Option (List F) :=
  fun t x =>
    (accel t (x.getD 0 0)).bind fun a =>
      if computeMegnosFlag then
        (accel t (x.getD 1 0)).map fun a_tilda => [a, a_tilda]
      else some [a]

/-- Embeds the `update` implementation for the model
(`sitnikov/src/model/comp/integrate.rs` lines 43-78): the combined
equations-of-motion plus MEGNO-integrand system on the six-dimensional
state `[z, z~, z_v, z~_v, int, mean_int]`. -/
def modelUpdate (accel : F → F → Option F) : F → List F → Option (List F) :=
  fun t x =>
    (accel t (x.getD 0 0)).bind fun a_1 =>
      (accel t (x.getD 1 0)).bind fun a_2 =>
        let delta_z := x.getD 1 0 - x.getD 0 0
        let delta_z_v := x.getD 3 0 - x.getD 2 0
        let delta_a := a_2 - a_1
        let delta_dot_pr := delta_z_v * delta_z + delta_a * delta_z_v
        let delta_norm_sq := delta_z ^ 2 + delta_z_v ^ 2
        some [x.getD 2 0, x.getD 3 0, a_1, a_2,
          delta_dot_pr / delta_norm_sq * t, 2 * x.getD 4 0 / t]

/-- Modelled from the spec: the symplectic `integrate` method (the file
`integrators/src/symplectic/integrate.rs` is declared in `mod.rs` but absent
from `src/`). Following §4.4/§6 of the specification and the general
integrator's `integrate` (`general/integrate.rs`), it prepares a result
matrix from the initial values and dispatches to the chosen method; the
model invokes it with the `Yoshida4th` method, embedded here. -/
def symplecticIntegrate (acc : F → List F → Option (List F)) (k : F)
    (x : List F) (t_0 h : F) (n : Nat) : Option (RMatrix F) :=
  yoshida_4th acc k t_0 h n (prepare x n)

/-- In-place update of the entry at row `r`, column `c` of the result
matrix, modelling `m[(r, c)] = f(m[(r, c)])`. -/
def RMatrix.updateEntry (m : RMatrix F) (r c : Nat) (f : F → F) : RMatrix F :=
  ⟨m.dim, m.cols.set c ((m.cols.getD c []).set r
    (f ((m.cols.getD c []).getD r 0)))⟩

/-- Embeds the MEGNO rescaling loop of `Model::integrate`
(`sitnikov/src/model/comp/integrate.rs` lines 139-146): for `i` in
`0..=n_m`, divide row 4 by `t/2` and row 5 by `t` at
`t = t_0' + (i + i_m) * h` (with `t_0'` the shadowed, shifted time
origin). -/
def rescaleGo (i_m : Nat) (t0p h : F) : Nat → Nat → RMatrix F → RMatrix F
  | _, 0, mm => mm
  | i, cnt + 1, mm =>
    let t := t0p + ((i + i_m : Nat) : F) * h
    let mm1 := mm.updateEntry 4 i (fun v => 2 * v / t)
    let mm2 := mm1.updateEntry 5 i (fun v => v / t)
    rescaleGo i_m t0p h (i + 1) cnt mm2

/-- Embeds `Model::integrate`
(`sitnikov/src/model/comp/integrate.rs` lines 80-163). With MEGNOs
requested: seed the generator with the constant `megnoSeed`, perturb the
initial position and velocity, compute the shadow's initial acceleration,
integrate the six-dimensional equations of motion with Yoshida for `i_m`
steps, then integrate the combined MEGNO system with RK4 for `n - i_m`
steps, and finally rescale rows 4 and 5. Without MEGNOs: integrate the
equations of motion directly. The parameter `entropy` stands for the
ambient randomness a non-fixed-seed implementation would consume; the
source never reads it, since the generator is seeded from the constant 1.
`gen s` is the standard-normal draw stream of the generator seeded with
`s`. -/
def modelIntegrate (accel : F → F → Option F) (gen : Nat → Nat → F)
    (entropy : Nat) (k : F) (x_0 : List F) (t_0 h : F) (n i_m : Nat)
    (computeMegnosFlag : Bool) : Option (RMatrix F × Option (RMatrix F)) :=
  if computeMegnosFlag then
    let g := gen megnoSeed
    let z_0_tilda := variate g 0 (x_0.getD 0 0)
    let z_v_0_tilda := variate g 1 (x_0.getD 1 0)
    (accel t_0 z_0_tilda).bind fun a_0_tilda =>
      (symplecticIntegrate (modelAccelerations true accel) k
          [x_0.getD 0 0, z_0_tilda, x_0.getD 1 0, z_v_0_tilda,
            x_0.getD 2 0, a_0_tilda] t_0 h i_m).bind fun rx =>
        let s := rx.state i_m
        let t0p := t_0 + (i_m : F) * h
        let n_m := n - i_m
        (generalIntegrate (modelUpdate accel)
            [s.getD 0 0, s.getD 1 0, s.getD 2 0, s.getD 3 0, 0, 0]
            t0p h n_m).map fun rm =>
          (rx, some (rescaleGo i_m t0p h 0 (n_m + 1) rm))
  else
    (symplecticIntegrate (modelAccelerations false accel) k x_0 t_0 h
        n).map fun rx => (rx, none)

/-- Iterated scalar leapfrog integration as in the model's `leapfrog`
method (`sitnikov/src/model/comp/leapfrog.rs` lines 38-46): starting from
the state triple `(z, z_v, a)`, apply `leapfrog_step` at times
`t_0 + i*h` for `i` in `0..n`, threading the trailing acceleration. -/
def leapfrogIter (accel : F → F → Option F) (t_0 h : F) :
    Nat → F × F × F → Option (F × F × F)
  | 0, s => some s
  | n + 1, s =>
    (leapfrogIter accel t_0 h n s).bind fun s2 =>
      leapfrog_step accel (t_0 + (n : F) * h) s2.1 s2.2.1 h s2.2.2

/-- The acceleration carried in a state triple is the one the callback
yields at the current time and position — the invariant maintained by the
leapfrog stepping loops. -/
def consistentAt (accel : F → F → Option F) (t : F) (s : F × F × F) : Prop :=
  accel t s.1 = some s.2.2

/-- One outer step of the model's scalar 4th-order Yoshida method
(`sitnikov/src/model/comp/yoshida_4th.rs` lines 53-61): the three leapfrog
sub-steps `(0, i_1), (i_1, i_2), (i_3, i_1)` with `i_k = h * d_k` folded
over the state triple. -/
def yoshidaStepScalar (accel : F → F → Option F) (k t h : F)
    (s : F × F × F) : Option (F × F × F) :=
  (leapfrog_step accel (t + 0) s.1 s.2.1 (h * d_1 k) s.2.2).bind fun s1 =>
    (leapfrog_step accel (t + h * d_1 k) s1.1 s1.2.1 (h * d_2 k)
      s1.2.2).bind fun s2 =>
      leapfrog_step accel (t + h * d_3 k) s2.1 s2.2.1 (h * d_1 k) s2.2.2

/-- Iterated scalar Yoshida integration
(`sitnikov/src/model/comp/yoshida_4th.rs` lines 35-67): apply the outer
step at times `t_0 + i*h` for `i` in `0..n`. -/
def yoshidaIterScalar (accel : F → F → Option F) (k t_0 h : F) :
    Nat → F × F × F → Option (F × F × F)
  | 0, s => some s
  | n + 1, s =>
    (yoshidaIterScalar accel k t_0 h n s).bind fun s2 =>
      yoshidaStepScalar accel k (t_0 + (n : F) * h) h s2

/-- Concrete acceleration callback over `ℚ` returning zero accelerations of
the same length as its input; used for concrete evaluations. -/
def accZeroQ : ℚ → List ℚ → Option (List ℚ) :=
  fun _ x => some (x.map fun _ => 0)

/-- Concrete scalar acceleration callback over `ℚ`, constantly zero. -/
def accelZeroQ : ℚ → ℚ → Option ℚ := fun _ _ => some 0

/-- Concrete integrand oracle over `ℚ`, constantly zero. -/
def igZeroQ : Nat → ℚ → Option ℚ := fun _ _ => some 0

/-! Section: Helper lemmas about lists and the result matrix -/

theorem getD_set_self {α : Type} (l : List α) (i : Nat) (x d : α)
    (h : i < l.length) : (l.set i x).getD i d = x := by
  simp [List.getD, List.getElem?_set_self, h]

theorem getD_set_ne {α : Type} (l : List α) (i j : Nat) (x d : α)
    (h : j ≠ i) : (l.set i x).getD j d = l.getD j d := by
  simp [List.getD, List.getElem?_set_ne (Ne.symm h)]

theorem getD_replicate_lt {α : Type} (n j : Nat) (a d : α) (h : j < n) :
    (List.replicate n a).getD j d = a := by
  simp [List.getD, List.getElem?_replicate, h]

theorem prepare_dim (x : List F) (n : Nat) : (prepare x n).dim = x.length :=
  rfl

theorem prepare_ncols (x : List F) (n : Nat) :
    (prepare x n).ncols = n + 1 := by
  simp [prepare, RMatrix.ncols]

theorem prepare_state_zero (x : List F) (n : Nat) :
    (prepare x n).state 0 = x := by
  unfold prepare RMatrix.state
  exact getD_set_self _ _ _ _ (by simp)

theorem prepare_initial_values (x : List F) (n : Nat) :
    (prepare x n).initial_values = x :=
  prepare_state_zero x n

theorem prepare_state_of_pos (x : List F) (n j : Nat) (h1 : 1 ≤ j)
    (h2 : j ≤ n) : (prepare x n).state j = List.replicate x.length 0 := by
  unfold prepare RMatrix.state
  rw [getD_set_ne _ _ _ _ _ (by omega)]
  exact getD_replicate_lt _ _ _ _ (by omega)

theorem set_state_eq_some_iff (m : RMatrix F) (i : Nat) (x : List F)
    (m' : RMatrix F) :
    m.set_state i x = some m' ↔
      x.length = m.dim ∧ i < m.cols.length ∧
        m' = ⟨m.dim, m.cols.set i x⟩ := by
  unfold RMatrix.set_state
  by_cases h : x.length = m.dim ∧ i < m.cols.length
  · rw [if_pos h]
    constructor
    · intro he
      injection he with he
      exact ⟨h.1, h.2, he.symm⟩
    · intro he
      rw [he.2.2]
  · rw [if_neg h]
    constructor
    · intro he
      cases he
    · intro he
      exact absurd ⟨he.1, he.2.1⟩ h

theorem set_state_some_dim {m m' : RMatrix F} {i : Nat} {x : List F}
    (h : m.set_state i x = some m') : m'.dim = m.dim := by
  rcases (set_state_eq_some_iff m i x m').1 h with ⟨_, _, he⟩
  rw [he]

theorem set_state_some_ncols {m m' : RMatrix F} {i : Nat} {x : List F}
    (h : m.set_state i x = some m') : m'.ncols = m.ncols := by
  rcases (set_state_eq_some_iff m i x m').1 h with ⟨_, _, he⟩
  rw [he]
  simp [RMatrix.ncols]

theorem set_state_some_state_self {m m' : RMatrix F} {i : Nat} {x : List F}
    (h : m.set_state i x = some m') : m'.state i = x := by
  rcases (set_state_eq_some_iff m i x m').1 h with ⟨_, hi, he⟩
  rw [he]
  exact getD_set_self _ _ _ _ (by simpa using hi)

theorem set_state_some_state_ne {m m' : RMatrix F} {i : Nat} {x : List F}
    (h : m.set_state i x = some m') {j : Nat} (hj : j ≠ i) :
    m'.state j = m.state j := by
  rcases (set_state_eq_some_iff m i x m').1 h with ⟨_, _, he⟩
  rw [he]
  exact getD_set_ne _ _ _ _ _ hj

/-! Section: The generic integration loop -/

theorem stepTraj_succ_left (step : Nat → List F → Option (List F))
    (x : List F) (i0 d : Nat) :
    stepTraj step x i0 (d + 1) =
      (step i0 x).bind fun y => stepTraj step y (i0 + 1) d := by
  induction d with
  | zero =>
    show step i0 x = (step i0 x).bind fun y => stepTraj step y (i0 + 1) 0
    cases hc : step i0 x with
    | none => rfl
    | some y => rfl
  | succ d ih =>
    show (stepTraj step x i0 (d + 1)).bind (step (i0 + (d + 1))) = _
    rw [ih, Option.bind_assoc]
    cases step i0 x with
    | none => rfl
    | some y =>
      show (stepTraj step y (i0 + 1) d).bind (step (i0 + (d + 1))) = _
      have harg : i0 + (d + 1) = (i0 + 1) + d := by omega
      rw [harg]
      rfl

theorem stepLoopGo_spec (step : Nat → List F → Option (List F)) :
    ∀ (m i0 : Nat) (x : List F) (b res : RMatrix F),
      stepLoopGo step i0 m x b = some res →
      res.dim = b.dim ∧ res.ncols = b.ncols ∧
        (∀ j, j ≤ i0 ∨ i0 + m < j → res.state j = b.state j) ∧
        (∀ d, 1 ≤ d → d ≤ m →
          stepTraj step x i0 d = some (res.state (i0 + d))) := by
  intro m
  induction m with
  | zero =>
    intro i0 x b res h
    have hb : b = res := by
      simpa [stepLoopGo] using h
    subst hb
    exact ⟨rfl, rfl, fun j _ => rfl, fun d h1 h2 => absurd h2 (by omega)⟩
  | succ m ih =>
    intro i0 x b res h
    rw [stepLoopGo] at h
    split at h
    · cases h
    · rename_i x2 hstep
      split at h
      · cases h
      · rename_i b2 hset
        obtain ⟨hdim, hnc, hunch, htraj⟩ := ih (i0 + 1) x2 b2 res h
        refine ⟨hdim.trans (set_state_some_dim hset),
          hnc.trans (set_state_some_ncols hset), ?_, ?_⟩
        · intro j hj
          have hj' : j ≤ i0 + 1 ∨ (i0 + 1) + m < j := by omega
          have hne : j ≠ i0 + 1 := by omega
          rw [hunch j hj']
          exact set_state_some_state_ne hset hne
        · intro d h1 h2
          obtain ⟨d', rfl⟩ : ∃ d', d = d' + 1 := ⟨d - 1, by omega⟩
          rw [stepTraj_succ_left, hstep, Option.some_bind]
          cases Nat.eq_zero_or_pos d' with
          | inl hz =>
            subst hz
            have hres : res.state (i0 + 1) = x2 := by
              rw [hunch (i0 + 1) (Or.inl le_rfl)]
              exact set_state_some_state_self hset
            rw [show stepTraj step x2 (i0 + 1) 0 = some x2 from rfl, hres]
          | inr hpos =>
            have ht := htraj d' hpos (by omega)
            have harg : (i0 + 1) + d' = i0 + (d' + 1) := by omega
            rw [harg] at ht
            exact ht

/-! Section: Claims C6, C7 and C10: the result buffer -/

/-- C6: for every initial-values vector `x` and iteration count `n`, the
buffer produced by `prepare` is an `x.length × (n + 1)` matrix whose
column 0 holds `x` and whose remaining columns are zero-filled, and
`initial_values()` on that buffer returns exactly `x`, unmodified. -/
theorem claim_C6_prepare_buffer (x : List F) (n : Nat) :
    (prepare x n).dim = x.length ∧
    (prepare x n).ncols = n + 1 ∧
    (prepare x n).state 0 = x ∧
    (∀ j, 1 ≤ j → j ≤ n →
      (prepare x n).state j = List.replicate x.length 0) ∧
    (prepare x n).initial_values = x :=
  ⟨prepare_dim x n, prepare_ncols x n, prepare_state_zero x n,
    fun j h1 h2 => prepare_state_of_pos x n j h1 h2,
    prepare_initial_values x n⟩

/-- Witness for C6 at a concrete input. -/
theorem claim_C6_witness :
    (prepare [(3 : ℚ), 7] 2).ncols = 3 ∧
      (prepare [(3 : ℚ), 7] 2).state 1 = [0, 0] ∧
      (prepare [(3 : ℚ), 7] 2).initial_values = [3, 7] := by
  have h := claim_C6_prepare_buffer [(3 : ℚ), 7] 2
  exact ⟨h.2.1, h.2.2.2.1 1 (by decide) (by decide), h.2.2.2.2⟩

/-- C7: `set_state(i, x)` fails whenever the length of `x` differs from the
buffer dimension (the nalgebra assertion failure, modelled as `none`), and
when the lengths agree and `i` is in range it stores `x` as column `i`. -/
theorem claim_C7_set_state (m : RMatrix F) (i : Nat) (x : List F) :
    (x.length ≠ m.dim → m.set_state i x = none) ∧
    (x.length = m.dim → i < m.ncols →
      ∃ m', m.set_state i x = some m' ∧ m'.state i = x ∧
        m'.dim = m.dim ∧ m'.ncols = m.ncols) := by
  constructor
  · intro hne
    unfold RMatrix.set_state
    rw [if_neg]
    intro hc
    exact hne hc.1
  · intro hlen hi
    have hsome : m.set_state i x = some ⟨m.dim, m.cols.set i x⟩ :=
      (set_state_eq_some_iff m i x _).2 ⟨hlen, hi, rfl⟩
    exact ⟨_, hsome, set_state_some_state_self hsome,
      set_state_some_dim hsome, set_state_some_ncols hsome⟩

/-- Witness for C7 at concrete inputs: a length-mismatched vector fails,
a matching one is stored as the requested column. -/
theorem claim_C7_witness :
    (prepare [(1 : ℚ), 2] 1).set_state 0 [5] = none ∧
      ((prepare [(1 : ℚ), 2] 1).set_state 1 [5, 6]).map
        (fun m' => m'.state 1) = some [5, 6] := by
  constructor
  · exact (claim_C7_set_state (prepare [(1 : ℚ), 2] 1) 0 [5]).1 (by decide)
  · rcases (claim_C7_set_state (prepare [(1 : ℚ), 2] 1) 1 [5, 6]).2
      (by decide) (by decide) with ⟨m', hm, hst, _, _⟩
    rw [hm]
    simp [hst]

/-- C10: a successful `set_state(i, x)` modifies only column `i`: the
dimensions and every other column of the buffer are unchanged. -/
theorem claim_C10_set_state_frame (m m' : RMatrix F) (i : Nat) (x : List F)
    (hset : m.set_state i x = some m') :
    m'.dim = m.dim ∧ m'.ncols = m.ncols ∧ m'.state i = x ∧
      ∀ j, j ≠ i → m'.state j = m.state j :=
  ⟨set_state_some_dim hset, set_state_some_ncols hset,
    set_state_some_state_self hset,
    fun _ hj => set_state_some_state_ne hset hj⟩

/-- Witness for C10 at a concrete input. -/
theorem claim_C10_witness :
    (RMatrix.mk 2 [[(1 : ℚ), 2], [5, 6], [0, 0]]).state 0 = [1, 2] ∧
      (RMatrix.mk 2 [[(1 : ℚ), 2], [5, 6], [0, 0]]).state 2 = [0, 0] := by
  have hm : (prepare [(1 : ℚ), 2] 2).set_state 1 [5, 6] =
      some (RMatrix.mk 2 [[(1 : ℚ), 2], [5, 6], [0, 0]]) := by decide
  have h := claim_C10_set_state_frame (prepare [(1 : ℚ), 2] 2) _ 1 [5, 6] hm
  constructor
  · rw [h.2.2.2 0 (by decide)]
    exact prepare_state_zero _ _
  · rw [h.2.2.2 2 (by decide)]
    exact prepare_state_of_pos _ _ 2 (by decide) (by decide)

/-! Section: Claims C2 and C3: the integration engines -/

theorem yoshidaBody_eq_outer (acc : F → List F → Option (List F))
    (k t_0 h : F) :
    yoshidaBody acc t_0 h (h * d_1 k) (h * d_2 k) (h * d_3 k) =
      yoshidaOuter acc k t_0 h := by
  funext i x
  simp only [yoshidaBody, yoshidaOuter, add_zero]

/-- C2: a successful run of the 4th-order Yoshida method on a buffer
prepared from `x_0` performs `n` outer steps, each applying exactly the
three leapfrog sub-steps with time offsets `0`, `h*d1`, `h*d3` and sizes
`h*d1`, `h*d2`, `h*d1` (the composite `yoshidaOuter`), and writes exactly
one result-buffer column per outer step: the buffer has `n + 1` columns,
column `0` is the initial state and column `i + 1` is the outer step of
column `i`; sub-step states are not recorded. The coefficients satisfy
`d1 = 1/(2 - k)` with `k = 2^(1/3)`, `d2 = 1 - 2*d1`, `d3 = d1 + d2`. -/
theorem claim_C2_yoshida (acc : F → List F → Option (List F)) (k t_0 h : F)
    (n : Nat) (x_0 : List F) (res : RMatrix F)
    (hrun : yoshida_4th acc k t_0 h n (prepare x_0 n) = some res) :
    d_1 k = 1 / (2 - k) ∧ d_2 k = 1 - 2 * d_1 k ∧ d_3 k = d_1 k + d_2 k ∧
      res.ncols = n + 1 ∧ res.state 0 = x_0 ∧
      ∀ i, i < n →
        yoshidaOuter acc k t_0 h i (res.state i) = some (res.state (i + 1)) := by
  unfold yoshida_4th at hrun
  rw [prepare_initial_values, yoshidaBody_eq_outer] at hrun
  obtain ⟨hdim, hnc, hunch, htraj⟩ :=
    stepLoopGo_spec (yoshidaOuter acc k t_0 h) n 0 x_0 _ res hrun
  have hstate0 : res.state 0 = x_0 := by
    rw [hunch 0 (Or.inl le_rfl)]
    exact prepare_state_zero x_0 n
  refine ⟨rfl, rfl, rfl, hnc.trans (prepare_ncols x_0 n), hstate0, ?_⟩
  intro i hi
  have hti : stepTraj (yoshidaOuter acc k t_0 h) x_0 0 i =
      some (res.state i) := by
    cases Nat.eq_zero_or_pos i with
    | inl hz => rw [hz, hstate0]; rfl
    | inr hpos =>
      have := htraj i hpos (le_of_lt hi)
      rwa [Nat.zero_add] at this
  have hti1 := htraj (i + 1) (by omega) (by omega)
  rw [Nat.zero_add] at hti1
  have hstep : stepTraj (yoshidaOuter acc k t_0 h) x_0 0 (i + 1) =
      (stepTraj (yoshidaOuter acc k t_0 h) x_0 0 i).bind
        (yoshidaOuter acc k t_0 h (0 + i)) := rfl
  rw [hti1, hti, Option.some_bind, Nat.zero_add] at hstep
  exact hstep.symm

/-- Witness for C2 at a concrete input over `ℚ` (with `k` instantiated to
`0`, which keeps the coefficients rational). -/
theorem claim_C2_witness :
    (RMatrix.mk 3 [[(0 : ℚ), 0, 0], [0, 0, 0]]).ncols = 2 ∧
      yoshidaOuter accZeroQ 0 0 2 0
          ((RMatrix.mk 3 [[(0 : ℚ), 0, 0], [0, 0, 0]]).state 0) =
        some ((RMatrix.mk 3 [[(0 : ℚ), 0, 0], [0, 0, 0]]).state 1) := by
  have hrun : yoshida_4th accZeroQ 0 0 2 1 (prepare [(0 : ℚ), 0, 0] 1) =
      some (RMatrix.mk 3 [[(0 : ℚ), 0, 0], [0, 0, 0]]) := by
    simp [yoshida_4th, stepLoopGo, yoshidaBody, leapfrogOnce, lfPos,
      lfAssemble, accZeroQ, prepare, RMatrix.initial_values, RMatrix.state,
      RMatrix.set_state, d_1, d_2, d_3, List.range_succ, List.replicate]
  have h := claim_C2_yoshida accZeroQ 0 0 2 1 [(0 : ℚ), 0, 0] _ hrun
  exact ⟨h.2.2.2.1, h.2.2.2.2.2 0 (by decide)⟩

/-- C3: a successful run of the general (RK4) integrator produces a result
buffer with `n + 1` columns whose column `0` is the initial state and whose
column `i + 1` is the classic RK4 step (`rk4Step`: the four stage
evaluations `k1..k4` and the combination `x + h/6*(k1 + 2*k2 + 2*k3 + k4)`)
of column `i` at time `t = t_0 + i*h`. -/
theorem claim_C3_runge_kutta (update : F → List F → Option (List F))
    (x : List F) (t_0 h : F) (n : Nat) (res : RMatrix F)
    (hrun : generalIntegrate update x t_0 h n = some res) :
    res.ncols = n + 1 ∧ res.state 0 = x ∧
      ∀ i, i < n →
        rk4Step update (t_0 + (i : F) * h) h (res.state i) =
          some (res.state (i + 1)) := by
  unfold generalIntegrate runge_kutta_4th at hrun
  rw [prepare_initial_values] at hrun
  obtain ⟨hdim, hnc, hunch, htraj⟩ :=
    stepLoopGo_spec (fun i x2 => rk4Step update (t_0 + (i : F) * h) h x2)
      n 0 x _ res hrun
  have hstate0 : res.state 0 = x := by
    rw [hunch 0 (Or.inl le_rfl)]
    exact prepare_state_zero x n
  refine ⟨hnc.trans (prepare_ncols x n), hstate0, ?_⟩
  intro i hi
  have hti : stepTraj (fun i x2 => rk4Step update (t_0 + (i : F) * h) h x2)
      x 0 i = some (res.state i) := by
    cases Nat.eq_zero_or_pos i with
    | inl hz => rw [hz, hstate0]; rfl
    | inr hpos =>
      have := htraj i hpos (le_of_lt hi)
      rwa [Nat.zero_add] at this
  have hti1 := htraj (i + 1) (by omega) (by omega)
  rw [Nat.zero_add] at hti1
  have hstep : stepTraj (fun i x2 => rk4Step update (t_0 + (i : F) * h) h x2)
      x 0 (i + 1) =
      (stepTraj (fun i x2 => rk4Step update (t_0 + (i : F) * h) h x2)
        x 0 i).bind
        (fun x2 => rk4Step update (t_0 + ((0 + i : Nat) : F) * h) h x2) := rfl
  rw [hti1, hti, Option.some_bind, Nat.zero_add] at hstep
  exact hstep.symm

/-- Witness for C3 at a concrete input over `ℚ`. -/
theorem claim_C3_witness :
    (RMatrix.mk 2 [[(1 : ℚ), 2], [1, 2]]).state 0 = [1, 2] ∧
      rk4Step accZeroQ (0 + ((0 : Nat) : ℚ) * 1) 1
          ((RMatrix.mk 2 [[(1 : ℚ), 2], [1, 2]]).state 0) =
        some ((RMatrix.mk 2 [[(1 : ℚ), 2], [1, 2]]).state 1) := by
  have hrun : generalIntegrate accZeroQ [(1 : ℚ), 2] 0 1 1 =
      some (RMatrix.mk 2 [[(1 : ℚ), 2], [1, 2]]) := by
    simp [generalIntegrate, runge_kutta_4th, stepLoopGo, rk4Step, accZeroQ,
      prepare, RMatrix.initial_values, RMatrix.state, RMatrix.set_state,
      List.replicate]
  have h := claim_C3_runge_kutta accZeroQ [(1 : ℚ), 2] 0 1 1 _ hrun
  exact ⟨h.2.1, by
    have := h.2.2 0 (by decide)
    rwa [h.2.1] ⟩

/-! Section: Claim C1: the leapfrog single step -/

theorem zip3With_eq_map_range (f : F → F → F → F) :
    ∀ (p v a : List F) (m : Nat), p.length = m → v.length = m →
      a.length = m →
      zip3With f p v a =
        (List.range m).map fun j => f (p.getD j 0) (v.getD j 0) (a.getD j 0) := by
  intro p
  induction p with
  | nil =>
    intro v a m hp _ _
    rw [← hp]
    rfl
  | cons ph pt ih =>
    intro v a m hp hv ha
    cases v with
    | nil => rw [← hv] at hp; cases hp
    | cons vh vt =>
      cases a with
      | nil => rw [← ha] at hp; cases hp
      | cons ah at2 =>
        obtain ⟨m', rfl⟩ : ∃ m', m = m' + 1 := ⟨pt.length, by
          simp only [List.length_cons] at hp; omega⟩
        rw [List.range_succ_eq_map, List.map_cons, List.map_map]
        show zip3With f (ph :: pt) (vh :: vt) (ah :: at2) = _
        rw [zip3With]
        congr 1
        rw [ih vt at2 m' (by simpa using hp) (by simpa using hv)
          (by simpa using ha)]
        exact List.map_congr_left fun j hj => rfl

theorem getD_self_map (l : List F) :
    (List.range l.length).map (fun j => l.getD j 0) = l := by
  induction l with
  | nil => rfl
  | cons h t ih =>
    show (List.range (t.length + 1)).map _ = _
    rw [List.range_succ_eq_map, List.map_cons, List.map_map]
    refine congrArg (List.cons h) ((List.map_congr_left fun j hj => rfl).trans ih)

theorem map_range_triple (g : Nat → F) (m : Nat) :
    (List.range (m + m + m)).map g =
      (List.range m).map g ++ (List.range m).map (fun j => g (m + j)) ++
        (List.range m).map (fun j => g (m + m + j)) := by
  rw [List.range_add, List.range_add, List.map_append, List.map_append,
    List.map_map, List.map_map]
  rfl

theorem getD_map_range (f : Nat → F) (m j : Nat) (d : F) (h : j < m) :
    ((List.range m).map f).getD j d = f j := by
  simp [List.getD, List.getElem?_map, List.getElem?_range, h]

theorem leapfrogOnce_of_acc {acc : F → List F → Option (List F)}
    {t h : F} {x_prev a : List F}
    (hacc : acc (t + h) (lfPos x_prev h) = some a) :
    leapfrogOnce acc t x_prev h =
      if x_prev.length / 3 ≤ a.length then some (lfAssemble x_prev h a)
      else none := by
  unfold leapfrogOnce
  rw [hacc]

theorem getD_triple_left (p v a : List F) (m i : Nat) (hp : p.length = m)
    (hv : v.length = m) (ha : a.length = m) (hi : i < m) :
    (p ++ v ++ a).getD i 0 = p.getD i 0 := by
  rw [List.getD_append _ _ _ _ (by simp [hp, hv]; omega),
    List.getD_append _ _ _ _ (by omega)]

theorem getD_triple_mid (p v a : List F) (m i : Nat) (hp : p.length = m)
    (hv : v.length = m) (ha : a.length = m) (h1 : m ≤ i) (h2 : i < m + m) :
    (p ++ v ++ a).getD i 0 = v.getD (i - m) 0 := by
  rw [List.getD_append _ _ _ _ (by simp [hp, hv]; omega),
    List.getD_append_right _ _ _ _ (by omega), hp]

theorem getD_triple_right (p v a : List F) (m i : Nat) (hp : p.length = m)
    (hv : v.length = m) (ha : a.length = m) (h1 : m + m ≤ i) :
    (p ++ v ++ a).getD i 0 = a.getD (i - (m + m)) 0 := by
  rw [List.getD_append_right _ _ _ _ (by simp [hp, hv]; omega)]
  congr 1
  simp [hp, hv]

theorem lfPos_triple (p v a : List F) (m : Nat) (h : F) (hp : p.length = m)
    (hv : v.length = m) (ha : a.length = m) :
    lfPos (p ++ v ++ a) h =
      zip3With (fun pj vj aj => pj + vj * h + (1 / 2) * aj * h ^ 2) p v a := by
  have hdiv : (p ++ v ++ a).length / 3 = m := by simp [hp, hv, ha]; omega
  unfold lfPos
  rw [hdiv,
    zip3With_eq_map_range (fun pj vj aj => pj + vj * h + (1 / 2) * aj * h ^ 2)
      p v a m hp hv ha]
  apply List.map_congr_left
  intro j hj
  have hjm : j < m := List.mem_range.mp hj
  rw [getD_triple_left p v a m j hp hv ha hjm,
    getD_triple_mid p v a m (j + m) hp hv ha (by omega) (by omega),
    getD_triple_right p v a m (j + 2 * m) hp hv ha (by omega)]
  have e1 : j + m - m = j := by omega
  have e2 : j + 2 * m - (m + m) = j := by omega
  rw [e1, e2]

theorem lfAssemble_triple (p v a a2 : List F) (m : Nat) (h : F)
    (hp : p.length = m) (hv : v.length = m) (ha : a.length = m)
    (ha2 : a2.length = m) :
    lfAssemble (p ++ v ++ a) h a2 =
      zip3With (fun pj vj aj => pj + vj * h + (1 / 2) * aj * h ^ 2) p v a
        ++ zip3With (fun vj aj bj => vj + (1 / 2) * (aj + bj) * h) v a a2
        ++ a2 := by
  have hdiv : (p ++ v ++ a).length / 3 = m := by simp [hp, hv, ha]; omega
  have hlen : (p ++ v ++ a).length = m + m + m := by simp [hp, hv, ha]; omega
  unfold lfAssemble
  rw [hdiv, hlen, map_range_triple]
  congr 1
  · congr 1
    · -- the position third
      rw [zip3With_eq_map_range
        (fun pj vj aj => pj + vj * h + (1 / 2) * aj * h ^ 2) p v a m hp hv ha]
      apply List.map_congr_left
      intro j hj
      have hjm : j < m := List.mem_range.mp hj
      rw [if_pos hjm, lfPos_triple p v a m h hp hv ha,
        zip3With_eq_map_range
          (fun pj vj aj => pj + vj * h + (1 / 2) * aj * h ^ 2) p v a m hp hv ha,
        getD_map_range _ _ _ _ hjm]
    · -- the velocity third
      rw [zip3With_eq_map_range
        (fun vj aj bj => vj + (1 / 2) * (aj + bj) * h) v a a2 m hv ha ha2]
      apply List.map_congr_left
      intro j hj
      have hjm : j < m := List.mem_range.mp hj
      rw [if_neg (by omega), if_pos (by omega),
        getD_triple_mid p v a m (m + j) hp hv ha (by omega) (by omega),
        getD_triple_right p v a m (m + j + m) hp hv ha (by omega)]
      have e1 : m + j - m = j := by omega
      have e2 : m + j + m - (m + m) = j := by omega
      rw [e1, e2]
  · -- the acceleration third
    trans ((List.range m).map fun j => a2.getD j 0)
    · apply List.map_congr_left
      intro j hj
      have hjm : j < m := List.mem_range.mp hj
      rw [if_neg (by omega), if_neg (by omega), if_pos (by omega)]
      congr 1
      omega
    · have h3 := getD_self_map a2
      rwa [ha2] at h3

/-- C1, corrected: the `leapfrog_once` of the integrators crate operates on
a state vector split into position, velocity and acceleration thirds of
equal length (the trailing acceleration is carried inside the state, not
passed separately); on such a state it computes componentwise
`position' = position + velocity*h + 0.5*a_prev*h^2`, then
`a_new = accelerations(t + h, position')`, then
`velocity' = velocity + 0.5*(a_prev + a_new)*h`, and stores `a_new` in the
last third. The scalar model-level `leapfrog_step` computes exactly the
claimed formulas with `a_prev` an explicit argument. -/
theorem claim_C1_leapfrog_amended (acc : F → List F → Option (List F))
    (accel : F → F → Option F) (t h : F) (p v a a2 : List F) (m : Nat)
    (hp : p.length = m) (hv : v.length = m) (ha : a.length = m)
    (hacc : acc (t + h)
      (zip3With (fun pj vj aj => pj + vj * h + (1 / 2) * aj * h ^ 2) p v a) =
      some a2)
    (ha2 : a2.length = m) :
    leapfrogOnce acc t (p ++ v ++ a) h =
      some
        (zip3With (fun pj vj aj => pj + vj * h + (1 / 2) * aj * h ^ 2) p v a
          ++ zip3With (fun vj aj bj => vj + (1 / 2) * (aj + bj) * h) v a a2
          ++ a2) ∧
    ∀ z z_v a_prev aNew : F,
      accel (t + h) (z + z_v * h + (1 / 2) * a_prev * h ^ 2) = some aNew →
      leapfrog_step accel t z z_v h a_prev =
        some (z + z_v * h + (1 / 2) * a_prev * h ^ 2,
          z_v + (1 / 2) * (a_prev + aNew) * h, aNew) := by
  constructor
  · have hdiv : (p ++ v ++ a).length / 3 = m := by simp [hp, hv, ha]; omega
    have hacc' : acc (t + h) (lfPos (p ++ v ++ a) h) = some a2 := by
      rw [lfPos_triple p v a m h hp hv ha]
      exact hacc
    rw [leapfrogOnce_of_acc hacc', hdiv, if_pos (by omega)]
    exact congrArg some (lfAssemble_triple p v a a2 m h hp hv ha ha2)
  · intro z z_v a_prev aNew haN
    show (accel (t + h) (z + z_v * h + (1 / 2) * a_prev * h ^ 2)).map
        (fun a3 => (z + z_v * h + (1 / 2) * a_prev * h ^ 2,
          z_v + (1 / 2) * (a_prev + a3) * h, a3)) = _
    rw [haN]
    rfl

/-- Counterexample to C1 as stated: on the state `[1, 2, 3, 4, 5, 6]` with
unit step and the zero acceleration callback, the source `leapfrog_once`
(which splits the state into thirds) returns `[13/2, 9, 11/2, 7, 0, 0]`,
whereas the claimed halves reading (positions `[1, 2, 3]`, velocities
`[4, 5, 6]`, trailing acceleration `[0, 0, 0]`) would give positions
`[5, 7, 9]`. -/
theorem claim_C1_counterexample :
    leapfrogOnce accZeroQ 0 [1, 2, 3, 4, 5, 6] 1 =
      some [13 / 2, 9, 11 / 2, 7, 0, 0] ∧
    leapfrogHalvesSpec accZeroQ 0 [1, 2, 3, 4, 5, 6] [0, 0, 0] 1 =
      some ([5, 7, 9, 4, 5, 6], [0, 0, 0]) ∧
    ¬ (leapfrogOnce accZeroQ 0 [1, 2, 3, 4, 5, 6] 1).map (fun y => y.take 3) =
        some [5, 7, 9] := by
  have hsrc : leapfrogOnce accZeroQ 0 [(1 : ℚ), 2, 3, 4, 5, 6] 1 =
      some [13 / 2, 9, 11 / 2, 7, 0, 0] := by
    norm_num [leapfrogOnce, lfPos, lfAssemble, accZeroQ, List.range_succ]
  refine ⟨hsrc, ?_, ?_⟩
  · norm_num [leapfrogHalvesSpec, accZeroQ, zip3With]
  · rw [hsrc]
    norm_num

/-- Witness for the amended C1 at a concrete input over `ℚ`. -/
theorem claim_C1_witness :
    leapfrogOnce accZeroQ 0 [(1 : ℚ), 2, 3] 1 =
      some
        (zip3With (fun pj vj aj => pj + vj * 1 + (1 / 2) * aj * 1 ^ 2)
            [(1 : ℚ)] [2] [3]
          ++ zip3With (fun vj aj bj => vj + (1 / 2) * (aj + bj) * 1)
            [(2 : ℚ)] [3] [0]
          ++ [0]) :=
  (claim_C1_leapfrog_amended accZeroQ accelZeroQ 0 1 [1] [2] [3] [0] 1
    (by simp) (by simp) (by simp) (by simp [accZeroQ, zip3With])
    (by simp)).1

/-! Section: Claim C5: the Newton-Raphson root-finder -/

theorem nrSeq_shift (f d : F → F) (x0 : F) :
    ∀ k, nrSeq f d (nrNext f d x0) k = nrSeq f d x0 (k + 1) := by
  intro k
  induction k with
  | zero => rfl
  | succ k ih =>
    show nrNext f d (nrSeq f d (nrNext f d x0) k) = _
    rw [ih]
    rfl

theorem nrConv_shift (eps : F) (f d : F → F) (x0 : F) (k : Nat) :
    nrConv eps f d (nrNext f d x0) k ↔ nrConv eps f d x0 (k + 1) := by
  unfold nrConv
  rw [nrSeq_shift, nrSeq_shift]

theorem newtonLoop_none (eps : F) (f d : F → F) :
    ∀ (fuel : Nat) (x0 : F),
      (∀ j, j < fuel → ¬ nrConv eps f d x0 j) →
      newtonLoop eps f d fuel x0 = none := by
  intro fuel
  induction fuel with
  | zero => intro x0 _; rfl
  | succ fuel ih =>
    intro x0 h
    show (if |x0 - nrNext f d x0| < eps * 10 then some (nrNext f d x0)
      else newtonLoop eps f d fuel (nrNext f d x0)) = none
    rw [if_neg (show ¬ |x0 - nrNext f d x0| < eps * 10 from h 0 (by omega))]
    apply ih
    intro j hj
    rw [nrConv_shift]
    exact h (j + 1) (by omega)

theorem newtonLoop_some (eps : F) (f d : F → F) :
    ∀ (fuel j : Nat) (x0 : F), j < fuel →
      (∀ i, i < j → ¬ nrConv eps f d x0 i) → nrConv eps f d x0 j →
      newtonLoop eps f d fuel x0 = some (nrSeq f d x0 (j + 1)) := by
  intro fuel
  induction fuel with
  | zero => intro j x0 hj; omega
  | succ fuel ih =>
    intro j x0 hj hmin hconv
    show (if |x0 - nrNext f d x0| < eps * 10 then some (nrNext f d x0)
      else newtonLoop eps f d fuel (nrNext f d x0)) =
      some (nrSeq f d x0 (j + 1))
    cases Nat.eq_zero_or_pos j with
    | inl hz =>
      subst hz
      rw [if_pos (show |x0 - nrNext f d x0| < eps * 10 from hconv)]
      rfl
    | inr hpos =>
      rw [if_neg (show ¬ |x0 - nrNext f d x0| < eps * 10 from hmin 0 hpos)]
      obtain ⟨j', rfl⟩ : ∃ j', j = j' + 1 := ⟨j - 1, by omega⟩
      have hres := ih j' (nrNext f d x0) (by omega)
        (fun i hi => by
          rw [nrConv_shift]
          exact hmin (i + 1) (by omega))
        ((nrConv_shift eps f d x0 j').2 hconv)
      rw [hres, nrSeq_shift]

/-- C5: the Newton-Raphson root-finder returns `initial` immediately when
`|initial| < eps`; otherwise it iterates `x_{k+1} = x_k - f(x_k)/f'(x_k)`
at most 5000 times, returns the first iterate whose step satisfies
`|x_k - x_{k+1}| < 10*eps`, and fails with the `DidNotConverge` error
carrying the initial value if and only if no iteration among the first 5000
satisfies the tolerance. -/
theorem claim_C5_newton_raphson (eps : F) (f d : F → F) (initial : F) :
    (|initial| < eps → newton_raphson eps f d initial = Except.ok initial) ∧
    (¬ |initial| < eps →
      (∀ j, j < 5000 → (∀ i, i < j → ¬ nrConv eps f d initial i) →
        nrConv eps f d initial j →
        newton_raphson eps f d initial =
          Except.ok (nrSeq f d initial (j + 1))) ∧
      ((∀ j, j < 5000 → ¬ nrConv eps f d initial j) ↔
        newton_raphson eps f d initial = Except.error initial)) := by
  constructor
  · intro h
    unfold newton_raphson
    rw [if_pos h]
  · intro h
    refine ⟨?_, ?_, ?_⟩
    · intro j hj hmin hconv
      unfold newton_raphson
      rw [if_neg h, newtonLoop_some eps f d 5000 j initial hj hmin hconv]
    · intro hall
      unfold newton_raphson
      rw [if_neg h, newtonLoop_none eps f d 5000 initial hall]
    · intro herr j hj
      by_contra hconv
      have hc : nrConv eps f d initial j := hconv
      have hexists : ∃ i, nrConv eps f d initial i := ⟨j, hc⟩
      have hflt : Nat.find hexists < 5000 :=
        lt_of_le_of_lt (Nat.find_min' hexists hc) hj
      have hsome := newtonLoop_some eps f d 5000 (Nat.find hexists) initial
        hflt (fun i hi => Nat.find_min hexists hi) (Nat.find_spec hexists)
      unfold newton_raphson at herr
      rw [if_neg h, hsome] at herr
      cases herr

/-- Witness for C5 at a concrete input over `ℚ`: with `f = 0`, `f' = 1`,
`eps = 1` and `initial = 5`, the first iterate already satisfies the
tolerance and is returned. -/
theorem claim_C5_witness :
    newton_raphson (1 : ℚ) (fun _ => 0) (fun _ => 1) 5 = Except.ok 5 := by
  have h := (claim_C5_newton_raphson (1 : ℚ) (fun _ => 0) (fun _ => 1) 5).2
    (by norm_num) |>.1 0 (by norm_num) (fun i hi => absurd hi (by omega))
    (by norm_num [nrConv, nrSeq, nrNext])
  rw [h]
  norm_num [nrSeq, nrNext]

/-! Section: Claim C8: the MEGNO accumulation -/

theorem getD_append_length (l : List F) (x d : F) :
    (l ++ [x]).getD l.length d = x := by
  rw [List.getD_append_right _ _ _ _ (le_refl _)]
  simp

theorem getD_append_of_length (l : List F) (x d : F) (k : Nat)
    (hk : l.length = k) : (l ++ [x]).getD k d = x := by
  subst hk
  exact getD_append_length l x d

theorem megnoGo_succ (ig : Nat → F → Option F) (t_0 h : F) (i m : Nat)
    (mi mni pr : F) (ms mns : List F) (igv : F)
    (hig : ig i (t_0 + (i : F) * h) = some igv) :
    megnoGo ig t_0 h i (m + 1) mi mni pr ms mns =
      megnoGo ig t_0 h (i + 1) m
        (trapezoidal h i mi pr igv)
        (trapezoidal h i mni
          ((ms ++ [2 / (t_0 + (i : F) * h) *
            trapezoidal h i mi pr igv]).getD (i - 1) 0)
          (2 / (t_0 + (i : F) * h) * trapezoidal h i mi pr igv))
        igv
        (ms ++ [2 / (t_0 + (i : F) * h) * trapezoidal h i mi pr igv])
        (mns ++ [1 / (t_0 + (i : F) * h) *
          trapezoidal h i mni
            ((ms ++ [2 / (t_0 + (i : F) * h) *
              trapezoidal h i mi pr igv]).getD (i - 1) 0)
            (2 / (t_0 + (i : F) * h) * trapezoidal h i mi pr igv)]) := by
  rw [megnoGo, hig]

theorem megnoGo_spec (ig : Nat → F → Option F) (g : Nat → F) (t_0 h : F) :
    ∀ (m i' : Nat),
      (∀ r, i' + 1 ≤ r → r ≤ i' + m → ig r (t_0 + (r : F) * h) = some (g r)) →
      megnoGo ig t_0 h (i' + 1) m (rawInt h g i') (meanInt t_0 h g i')
        (if i' = 0 then 0 else g i')
        ((List.range i').map fun j => megnoAt t_0 h g (j + 1))
        ((List.range i').map fun j => meanMegnoAt t_0 h g (j + 1)) =
      some ((List.range (i' + m)).map fun j => megnoAt t_0 h g (j + 1),
        (List.range (i' + m)).map fun j => meanMegnoAt t_0 h g (j + 1)) := by
  intro m
  induction m with
  | zero =>
    intro i' _
    simp [megnoGo]
  | succ m ih =>
    intro i' hg
    have hig := hg (i' + 1) (by omega) (by omega)
    rw [megnoGo_succ ig t_0 h (i' + 1) m _ _ _ _ _ _ hig,
      Nat.add_sub_cancel]
    have hlen : ((List.range i').map fun j => megnoAt t_0 h g (j + 1)).length
        = i' := by simp
    rw [getD_append_of_length _ _ _ i' hlen]
    have hmap : ((List.range i').map fun j => megnoAt t_0 h g (j + 1)) ++
        [2 / (t_0 + ((i' + 1 : Nat) : F) * h) *
          trapezoidal h (i' + 1) (rawInt h g i')
            (if i' = 0 then 0 else g i') (g (i' + 1))] =
        (List.range (i' + 1)).map fun j => megnoAt t_0 h g (j + 1) := by
      rw [List.range_succ, List.map_append]
      rfl
    have hmapm : ((List.range i').map fun j => meanMegnoAt t_0 h g (j + 1)) ++
        [1 / (t_0 + ((i' + 1 : Nat) : F) * h) *
          trapezoidal h (i' + 1) (meanInt t_0 h g i')
            (2 / (t_0 + ((i' + 1 : Nat) : F) * h) *
              trapezoidal h (i' + 1) (rawInt h g i')
                (if i' = 0 then 0 else g i') (g (i' + 1)))
            (2 / (t_0 + ((i' + 1 : Nat) : F) * h) *
              trapezoidal h (i' + 1) (rawInt h g i')
                (if i' = 0 then 0 else g i') (g (i' + 1)))] =
        (List.range (i' + 1)).map fun j => meanMegnoAt t_0 h g (j + 1) := by
      rw [List.range_succ, List.map_append]
      rfl
    rw [hmap, hmapm]
    have key := ih (i' + 1) (fun r h1 h2 => hg r (by omega) (by omega))
    rw [if_neg (Nat.succ_ne_zero i')] at key
    have harg : i' + 1 + m = i' + (m + 1) := by omega
    rw [harg] at key
    exact key

/-- C8: at every step `i` (at time `t = t_0 + i*h`) the MEGNO output equals
`2/t` times the running raw integral and the mean MEGNO equals `1/t` times
the running mean integral; the mean integral accumulates the MEGNO series
itself (not the raw integrand); and the incremental trapezoidal update for
`i ≥ 2` uses only the previous and current integrand values together with
the running integral scaled by `(i-1)/i` — the loop keeps no integrand
history beyond the single previous value. -/
theorem claim_C8_megno (ig : Nat → F → Option F) (g : Nat → F) (t_0 h : F)
    (n : Nat)
    (hg : ∀ r, 1 ≤ r → r ≤ n → ig r (t_0 + (r : F) * h) = some (g r)) :
    compute_megnos ig t_0 h n =
      some ((List.range n).map fun j => megnoAt t_0 h g (j + 1),
        (List.range n).map fun j => meanMegnoAt t_0 h g (j + 1)) ∧
    (∀ i : Nat, 2 ≤ i → ∀ integral prev cur : F,
      trapezoidal h i integral prev cur =
        (integral + h * prev / 2 / ((i : F) - 1)) * ((i : F) - 1) / (i : F)
          + h * cur / 2 / (i : F)) ∧
    (∀ i : Nat, megnoAt t_0 h g i = 2 / (t_0 + (i : F) * h) * rawInt h g i) ∧
    (∀ i : Nat, meanMegnoAt t_0 h g i =
      1 / (t_0 + (i : F) * h) * meanInt t_0 h g i) ∧
    (∀ i : Nat, meanInt t_0 h g (i + 1) =
      trapezoidal h (i + 1) (meanInt t_0 h g i) (megnoAt t_0 h g (i + 1))
        (megnoAt t_0 h g (i + 1))) := by
  refine ⟨?_, ?_, fun i => rfl, fun i => rfl, fun i => rfl⟩
  · have key := megnoGo_spec ig g t_0 h n 0
      (fun r h1 h2 => hg r (by omega) (by omega))
    simp only [Nat.zero_add] at key
    exact key
  · intro i hi integral prev cur
    unfold trapezoidal
    rw [if_neg (by omega)]

/-- Witness for C8 at a concrete input over `ℚ`: with the zero integrand,
both output series are zero. -/
theorem claim_C8_witness :
    compute_megnos igZeroQ 0 1 1 = some ([(0 : ℚ)], [0]) := by
  have h := (claim_C8_megno igZeroQ (fun _ => 0) 0 1 1
    (fun r _ _ => rfl)).1
  rw [h]
  norm_num [megnoAt, meanMegnoAt, rawInt, meanInt, trapezoidal,
    List.range_succ]

/-! Section: Claim C9: determinism of the MEGNO computation -/

/-- C9: the MEGNO computation is deterministic. The integration entry point
consumes no ambient randomness (first conjunct: its result is unchanged
under any two entropy environments, i.e. two runs under identical
parameters produce identical results), because the shadow-trajectory
perturbation is drawn from a generator seeded with the fixed constant
`megnoSeed = 1`: the result depends on the generator family only through
the stream of the fixed seed (second conjunct). -/
theorem claim_C9_determinism (accel : F → F → Option F)
    (gen : Nat → Nat → F) (k : F) (x_0 : List F) (t_0 h : F) (n i_m : Nat)
    (b : Bool) :
    (∀ e1 e2 : Nat,
      modelIntegrate accel gen e1 k x_0 t_0 h n i_m b =
        modelIntegrate accel gen e2 k x_0 t_0 h n i_m b) ∧
    (∀ gen2 : Nat → Nat → F, gen megnoSeed = gen2 megnoSeed →
      ∀ e1 e2 : Nat,
        modelIntegrate accel gen e1 k x_0 t_0 h n i_m b =
          modelIntegrate accel gen2 e2 k x_0 t_0 h n i_m b) := by
  constructor
  · intro e1 e2
    rfl
  · intro gen2 hgen e1 e2
    unfold modelIntegrate
    rw [hgen]

/-- Witness for C9 at concrete inputs: two runs with different entropy
environments coincide. -/
theorem claim_C9_witness :
    modelIntegrate accelZeroQ (fun _ _ => 0) 0 0 [0, 0, 0] 0 1 1 0 true =
      modelIntegrate accelZeroQ (fun _ _ => 0) 1 0 [0, 0, 0] 0 1 1 0 true :=
  (claim_C9_determinism accelZeroQ (fun _ _ => 0) 0 [0, 0, 0] 0 1 1 0
    true).1 0 1

/-! Section: Supporting development for claim C4: exact time-reversibility of
the leapfrog step in exact arithmetic -/

theorem leapfrog_step_of_acc (accel : F → F → Option F) (t z z_v h a a3 : F)
    (hacc : accel (t + h) (z + z_v * h + (1 / 2) * a * h ^ 2) = some a3) :
    leapfrog_step accel t z z_v h a =
      some (z + z_v * h + (1 / 2) * a * h ^ 2,
        z_v + (1 / 2) * (a + a3) * h, a3) := by
  show (accel (t + h) (z + z_v * h + (1 / 2) * a * h ^ 2)).map
      (fun a4 => (z + z_v * h + (1 / 2) * a * h ^ 2,
        z_v + (1 / 2) * (a + a4) * h, a4)) = _
  rw [hacc]
  rfl

theorem leapfrog_step_inverts (accel : F → F → Option F) (t h : F)
    (s s' : F × F × F)
    (hstep : leapfrog_step accel t s.1 s.2.1 h s.2.2 = some s')
    (hcons : consistentAt accel t s) :
    leapfrog_step accel (t + h) s'.1 s'.2.1 (-h) s'.2.2 = some s := by
  obtain ⟨z, z_v, a⟩ := s
  dsimp only at hstep
  have hcons' : accel t z = some a := hcons
  cases hacc : accel (t + h) (z + z_v * h + (1 / 2) * a * h ^ 2) with
  | none =>
    have hnone : leapfrog_step accel t z z_v h a = none := by
      show (accel (t + h) (z + z_v * h + (1 / 2) * a * h ^ 2)).map _ = none
      rw [hacc]
      rfl
    rw [hnone] at hstep
    cases hstep
  | some a3 =>
    rw [leapfrog_step_of_acc accel t z z_v h a a3 hacc] at hstep
    injection hstep with hstep
    subst hstep
    dsimp only
    have hz : z + z_v * h + (1 / 2) * a * h ^ 2 +
        (z_v + (1 / 2) * (a + a3) * h) * (-h) +
        (1 / 2) * a3 * (-h) ^ 2 = z := by ring
    rw [leapfrog_step_of_acc accel (t + h)
      (z + z_v * h + (1 / 2) * a * h ^ 2) (z_v + (1 / 2) * (a + a3) * h)
      (-h) a3 a (by rw [hz, show t + h + -h = t from by ring]; exact hcons')]
    simp only [Option.some.injEq, Prod.mk.injEq]
    exact ⟨hz, by ring, trivial⟩

theorem leapfrog_step_consistent (accel : F → F → Option F) (t h : F)
    (s s' : F × F × F)
    (hstep : leapfrog_step accel t s.1 s.2.1 h s.2.2 = some s') :
    consistentAt accel (t + h) s' := by
  obtain ⟨z, z_v, a⟩ := s
  dsimp only at hstep
  cases hacc : accel (t + h) (z + z_v * h + (1 / 2) * a * h ^ 2) with
  | none =>
    have hnone : leapfrog_step accel t z z_v h a = none := by
      show (accel (t + h) (z + z_v * h + (1 / 2) * a * h ^ 2)).map _ = none
      rw [hacc]
      rfl
    rw [hnone] at hstep
    cases hstep
  | some a3 =>
    rw [leapfrog_step_of_acc accel t z z_v h a a3 hacc] at hstep
    injection hstep with hstep
    subst hstep
    exact hacc

theorem leapfrogIter_cons (accel : F → F → Option F) (t_0 h : F) :
    ∀ (n : Nat) (s : F × F × F),
      leapfrogIter accel t_0 h (n + 1) s =
        (leapfrog_step accel t_0 s.1 s.2.1 h s.2.2).bind fun s1 =>
          leapfrogIter accel (t_0 + h) h n s1 := by
  intro n
  induction n with
  | zero =>
    intro s
    show (leapfrogIter accel t_0 h 0 s).bind _ = _
    have ht : t_0 + ((0 : Nat) : F) * h = t_0 := by push_cast; ring
    rw [show leapfrogIter accel t_0 h 0 s = some s from rfl, Option.some_bind,
      ht]
    cases hc : leapfrog_step accel t_0 s.1 s.2.1 h s.2.2 with
    | none => rfl
    | some s1 => rfl
  | succ n ih =>
    intro s
    show (leapfrogIter accel t_0 h (n + 1) s).bind _ = _
    rw [ih s, Option.bind_assoc]
    cases hc : leapfrog_step accel t_0 s.1 s.2.1 h s.2.2 with
    | none => rfl
    | some s1 =>
      rw [Option.some_bind, Option.some_bind]
      show (leapfrogIter accel (t_0 + h) h n s1).bind _ =
        (leapfrogIter accel (t_0 + h) h n s1).bind _
      have ht : t_0 + ((n + 1 : Nat) : F) * h = t_0 + h + (n : F) * h := by
        push_cast
        ring
      rw [ht]

theorem leapfrogIter_consistent (accel : F → F → Option F) (h : F) :
    ∀ (n : Nat) (t_0 : F) (s sn : F × F × F),
      consistentAt accel t_0 s →
      leapfrogIter accel t_0 h n s = some sn →
      consistentAt accel (t_0 + (n : F) * h) sn := by
  intro n
  induction n with
  | zero =>
    intro t_0 s sn hc hit
    have hs : s = sn := by simpa [leapfrogIter] using hit
    subst hs
    have ht : t_0 + ((0 : Nat) : F) * h = t_0 := by push_cast; ring
    rw [ht]
    exact hc
  | succ n ih =>
    intro t_0 s sn hc hit
    show accel (t_0 + ((n + 1 : Nat) : F) * h) sn.1 = some sn.2.2
    rw [leapfrogIter] at hit
    cases hmid : leapfrogIter accel t_0 h n s with
    | none => rw [hmid] at hit; cases hit
    | some sm =>
      rw [hmid, Option.some_bind] at hit
      have hcs := leapfrog_step_consistent accel (t_0 + (n : F) * h) h sm sn hit
      have ht : t_0 + ((n + 1 : Nat) : F) * h = t_0 + (n : F) * h + h := by
        push_cast
        ring
      rw [ht]
      exact hcs

/-- Exact time-reversibility of the scalar leapfrog integration in exact
arithmetic: if the initial acceleration is consistent (as the model's
`leapfrog` computes it) and `n` forward steps of size `h` from `s` reach
`sn`, then `n` backward steps of size `-h` started at time `t_0 + n*h`
from `sn` return exactly to `s` — the forward-backward error is zero, not
merely bounded by a power of `h`. -/
theorem leapfrog_time_reversible (accel : F → F → Option F) (h : F) :
    ∀ (n : Nat) (t_0 : F) (s sn : F × F × F),
      consistentAt accel t_0 s →
      leapfrogIter accel t_0 h n s = some sn →
      leapfrogIter accel (t_0 + (n : F) * h) (-h) n sn = some s := by
  intro n
  induction n with
  | zero =>
    intro t_0 s sn _ hit
    have hs : s = sn := by simpa [leapfrogIter] using hit
    subst hs
    rfl
  | succ n ih =>
    intro t_0 s sn hc hit
    rw [leapfrogIter] at hit
    cases hmid : leapfrogIter accel t_0 h n s with
    | none => rw [hmid] at hit; cases hit
    | some sm =>
      rw [hmid, Option.some_bind] at hit
      have hcons_m : consistentAt accel (t_0 + (n : F) * h) sm :=
        leapfrogIter_consistent accel h n t_0 s sm hc hmid
      have hback1 := leapfrog_step_inverts accel (t_0 + (n : F) * h) h sm sn
        hit hcons_m
      have hbackn := ih t_0 s sm hc hmid
      rw [leapfrogIter_cons]
      have ht1 : t_0 + ((n + 1 : Nat) : F) * h = t_0 + (n : F) * h + h := by
        push_cast
        ring
      rw [ht1, hback1, Option.some_bind]
      have ht2 : t_0 + (n : F) * h + h + -h = t_0 + (n : F) * h := by ring
      rw [ht2]
      exact hbackn

theorem yoshidaStep_consistent (accel : F → F → Option F) (k t h : F)
    (s s' : F × F × F)
    (hstep : yoshidaStepScalar accel k t h s = some s') :
    consistentAt accel (t + h) s' := by
  unfold yoshidaStepScalar at hstep
  cases h1 : leapfrog_step accel (t + 0) s.1 s.2.1 (h * d_1 k) s.2.2 with
  | none => rw [h1] at hstep; cases hstep
  | some s1 =>
    rw [h1, Option.some_bind] at hstep
    cases h2 : leapfrog_step accel (t + h * d_1 k) s1.1 s1.2.1 (h * d_2 k)
        s1.2.2 with
    | none => rw [h2] at hstep; cases hstep
    | some s2 =>
      rw [h2, Option.some_bind] at hstep
      have hc := leapfrog_step_consistent accel (t + h * d_3 k) (h * d_1 k)
        s2 s' hstep
      rwa [show t + h * d_3 k + h * d_1 k = t + h from by
        show t + h * (d_1 k + (1 - 2 * d_1 k)) + h * d_1 k = t + h
        ring] at hc

theorem yoshidaStep_inverts (accel : F → F → Option F) (k t h : F)
    (s s' : F × F × F)
    (hstep : yoshidaStepScalar accel k t h s = some s')
    (hcons : consistentAt accel t s) :
    yoshidaStepScalar accel k (t + h) (-h) s' = some s := by
  unfold yoshidaStepScalar at hstep
  cases h1 : leapfrog_step accel (t + 0) s.1 s.2.1 (h * d_1 k) s.2.2 with
  | none => rw [h1] at hstep; cases hstep
  | some s1 =>
    rw [h1, Option.some_bind] at hstep
    cases h2 : leapfrog_step accel (t + h * d_1 k) s1.1 s1.2.1 (h * d_2 k)
        s1.2.2 with
    | none => rw [h2] at hstep; cases hstep
    | some s2 =>
      rw [h2, Option.some_bind] at hstep
      have hc0 : consistentAt accel (t + 0) s := by
        rw [add_zero]
        exact hcons
      have hc1 : consistentAt accel (t + h * d_1 k) s1 := by
        have := leapfrog_step_consistent accel (t + 0) (h * d_1 k) s s1 h1
        rwa [show t + 0 + h * d_1 k = t + h * d_1 k from by ring] at this
      have hc2 : consistentAt accel (t + h * d_3 k) s2 := by
        have := leapfrog_step_consistent accel (t + h * d_1 k) (h * d_2 k)
          s1 s2 h2
        rwa [show t + h * d_1 k + h * d_2 k = t + h * d_3 k from by
          show _ = t + h * (d_1 k + d_2 k)
          ring] at this
      have hb3 := leapfrog_step_inverts accel (t + h * d_3 k) (h * d_1 k)
        s2 s' hstep hc2
      have hb2 := leapfrog_step_inverts accel (t + h * d_1 k) (h * d_2 k)
        s1 s2 h2 hc1
      have hb1 := leapfrog_step_inverts accel (t + 0) (h * d_1 k) s s1 h1 hc0
      unfold yoshidaStepScalar
      rw [show (-h) * d_1 k = -(h * d_1 k) from by ring,
        show (-h) * d_2 k = -(h * d_2 k) from by ring,
        show t + h + 0 = t + h * d_3 k + h * d_1 k from by
          show _ = t + h * (d_1 k + (1 - 2 * d_1 k)) + h * d_1 k
          ring,
        hb3]
      simp only [Option.some_bind]
      rw [show t + h + -(h * d_1 k) = t + h * d_1 k + h * d_2 k from by
          show _ = t + h * d_1 k + h * (1 - 2 * d_1 k)
          ring,
        hb2]
      simp only [Option.some_bind]
      rw [show t + h + -h * d_3 k = t + 0 + h * d_1 k from by
          show t + h + -h * (d_1 k + (1 - 2 * d_1 k)) = t + 0 + h * d_1 k
          ring,
        hb1]

theorem yoshidaIterScalar_cons (accel : F → F → Option F) (k t_0 h : F) :
    ∀ (n : Nat) (s : F × F × F),
      yoshidaIterScalar accel k t_0 h (n + 1) s =
        (yoshidaStepScalar accel k t_0 h s).bind fun s1 =>
          yoshidaIterScalar accel k (t_0 + h) h n s1 := by
  intro n
  induction n with
  | zero =>
    intro s
    show (yoshidaIterScalar accel k t_0 h 0 s).bind _ = _
    have ht : t_0 + ((0 : Nat) : F) * h = t_0 := by push_cast; ring
    rw [show yoshidaIterScalar accel k t_0 h 0 s = some s from rfl,
      Option.some_bind, ht]
    cases hc : yoshidaStepScalar accel k t_0 h s with
    | none => rfl
    | some s1 => rfl
  | succ n ih =>
    intro s
    show (yoshidaIterScalar accel k t_0 h (n + 1) s).bind _ = _
    rw [ih s, Option.bind_assoc]
    cases hc : yoshidaStepScalar accel k t_0 h s with
    | none => rfl
    | some s1 =>
      rw [Option.some_bind, Option.some_bind]
      show (yoshidaIterScalar accel k (t_0 + h) h n s1).bind _ =
        (yoshidaIterScalar accel k (t_0 + h) h n s1).bind _
      have ht : t_0 + ((n + 1 : Nat) : F) * h = t_0 + h + (n : F) * h := by
        push_cast
        ring
      rw [ht]

theorem yoshidaIterScalar_consistent (accel : F → F → Option F) (k h : F) :
    ∀ (n : Nat) (t_0 : F) (s sn : F × F × F),
      consistentAt accel t_0 s →
      yoshidaIterScalar accel k t_0 h n s = some sn →
      consistentAt accel (t_0 + (n : F) * h) sn := by
  intro n
  induction n with
  | zero =>
    intro t_0 s sn hc hit
    have hs : s = sn := by simpa [yoshidaIterScalar] using hit
    subst hs
    have ht : t_0 + ((0 : Nat) : F) * h = t_0 := by push_cast; ring
    rw [ht]
    exact hc
  | succ n ih =>
    intro t_0 s sn hc hit
    rw [yoshidaIterScalar] at hit
    cases hmid : yoshidaIterScalar accel k t_0 h n s with
    | none => rw [hmid] at hit; cases hit
    | some sm =>
      rw [hmid, Option.some_bind] at hit
      have hcs := yoshidaStep_consistent accel k (t_0 + (n : F) * h) h sm sn
        hit
      have ht : t_0 + ((n + 1 : Nat) : F) * h = t_0 + (n : F) * h + h := by
        push_cast
        ring
      rw [ht]
      exact hcs

/-- Exact time-reversibility of the scalar 4th-order Yoshida integration in
exact arithmetic: with a consistent initial acceleration, `n` forward outer
steps of size `h` followed by `n` backward outer steps of size `-h` from
the reached state return exactly to the initial state — the forward-backward
error is zero, not merely bounded by a power of `h`. -/
theorem yoshida_time_reversible (accel : F → F → Option F) (k h : F) :
    ∀ (n : Nat) (t_0 : F) (s sn : F × F × F),
      consistentAt accel t_0 s →
      yoshidaIterScalar accel k t_0 h n s = some sn →
      yoshidaIterScalar accel k (t_0 + (n : F) * h) (-h) n sn = some s := by
  intro n
  induction n with
  | zero =>
    intro t_0 s sn _ hit
    have hs : s = sn := by simpa [yoshidaIterScalar] using hit
    subst hs
    rfl
  | succ n ih =>
    intro t_0 s sn hc hit
    rw [yoshidaIterScalar] at hit
    cases hmid : yoshidaIterScalar accel k t_0 h n s with
    | none => rw [hmid] at hit; cases hit
    | some sm =>
      rw [hmid, Option.some_bind] at hit
      have hcons_m : consistentAt accel (t_0 + (n : F) * h) sm :=
        yoshidaIterScalar_consistent accel k h n t_0 s sm hc hmid
      have hback1 := yoshidaStep_inverts accel k (t_0 + (n : F) * h) h sm sn
        hit hcons_m
      have hbackn := ih t_0 s sm hc hmid
      rw [yoshidaIterScalar_cons]
      have ht1 : t_0 + ((n + 1 : Nat) : F) * h = t_0 + (n : F) * h + h := by
        push_cast
        ring
      rw [ht1, hback1, Option.some_bind]
      have ht2 : t_0 + (n : F) * h + h + -h = t_0 + (n : F) * h := by ring
      rw [ht2]
      exact hbackn

end Sitnikov
